import Mathlib

/-!
Verification of the payload-delivery pipeline in `tools/exe_to_ps1.py` and
`tools/exe_to_xte_script_ps1.py`: the compressor/encoder, the PowerShell
dropper-script generator, and the xte keystroke synthesizer with its timing
estimator.  Python floats are modelled by `ℚ`; Python `bytes` by `List Nat`
with elements below 256; Python strings by `List Char`.
-/

namespace Rdp2Tcp

/-! ## Keystroke synthesizer: data model (from `exe_to_xte_script_ps1.py`) -/

/-- One xte instruction, before serialization.  `sleep` carries the exact
(pre-truncation) duration in seconds that `xsleep` both accumulates into
`total_seconds` and serializes as integer microseconds. -/
inductive Event where
  | sleep (t : ℚ)
  | str (s : List Char)
  | key (k : String)
  | keydown (k : String)
  | keyup (k : String)
deriving DecidableEq, Repr

/-- Value of an entry of `special_key_map`: either a single named key or a
modifier+key chord (a Python tuple in the source). -/
inductive KeyAct where
  | plain (k : String)
  | chord (m k : String)
deriving DecidableEq, Repr

/-- The `special_key_map` dictionary of `encode_xte`
(`exe_to_xte_script_ps1.py` lines 53-89), as a lookup function. -/
def specialKeyMap (c : Char) : Option KeyAct :=
  if c = '\n' then some (.plain "Return")
  else if c = '\t' then some (.plain "Tab")
  else if c = ' ' then some (.plain "space")
  else if c = '/' then some (.plain "slash")
  else if c = '\\' then some (.plain "backslash")
  else if c = '.' then some (.plain "period")
  else if c = ',' then some (.plain "comma")
  else if c = ';' then some (.plain "semicolon")
  else if c = ':' then some (.plain "colon")
  else if c = Char.ofNat 39 then some (.plain "apostrophe")
  else if c = Char.ofNat 34 then some (.plain "quotedbl")
  else if c = '[' then some (.plain "bracketleft")
  else if c = ']' then some (.plain "bracketright")
  else if c = Char.ofNat 123 then some (.chord "Shift_L" "bracketleft")
  else if c = Char.ofNat 125 then some (.chord "Shift_L" "bracketright")
  else if c = '(' then some (.chord "Shift_L" "9")
  else if c = ')' then some (.chord "Shift_L" "0")
  else if c = '!' then some (.chord "Shift_L" "1")
  else if c = '@' then some (.chord "Shift_L" "2")
  else if c = '#' then some (.chord "Shift_L" "3")
  else if c = '$' then some (.chord "Shift_L" "4")
  else if c = '%' then some (.chord "Shift_L" "5")
  else if c = '^' then some (.chord "Shift_L" "6")
  else if c = '&' then some (.chord "Shift_L" "7")
  else if c = '*' then some (.chord "Shift_L" "8")
  else if c = '+' then some (.chord "Shift_L" "equal")
  else if c = '=' then some (.plain "equal")
  else if c = '-' then some (.plain "minus")
  else if c = '_' then some (.chord "Shift_L" "minus")
  else if c = '?' then some (.chord "Shift_L" "slash")
  else if c = '<' then some (.chord "Shift_L" "comma")
  else if c = '>' then some (.chord "Shift_L" "period")
  else if c = '|' then some (.chord "Shift_L" "backslash")
  else if c = Char.ofNat 96 then some (.plain "grave")
  else if c = '~' then some (.chord "Shift_L" "grave")
  else none

/-- A character Python's `str.splitlines` treats as a line boundary. -/
def isLineBreak (c : Char) : Bool :=
  c = '\n' || c = '\r' || c = Char.ofNat 11 || c = Char.ofNat 12 ||
  c = Char.ofNat 28 || c = Char.ofNat 29 || c = Char.ofNat 30 ||
  c = Char.ofNat 133 || c = Char.ofNat 8232 || c = Char.ofNat 8233

/-- Worker for `splitlines`; `acc` holds the current line reversed.  A
`"\r\n"` pair is consumed as a single boundary. -/
def splitlinesAux : List Char → List Char → List (List Char)
  | [], acc => if acc.isEmpty then [] else [acc.reverse]
  | c :: rest, acc =>
    if isLineBreak c then
      match rest with
      | [] => [acc.reverse]
      | e :: rest2 =>
        if c = '\r' && e = '\n' then acc.reverse :: splitlinesAux rest2 []
        else acc.reverse :: splitlinesAux (e :: rest2) []
    else splitlinesAux rest (c :: acc)

/-- Python's `str.splitlines()` (no `keepends`): terminators are consumed,
`"\r\n"` counts as one boundary, and a trailing terminator opens no new
line. -/
def splitlines (text : List Char) : List (List Char) :=
  splitlinesAux text []

/-- The synthesizer's running state: the instructions written so far and the
`total_seconds` accumulator (which starts at the focus delay). -/
structure XteState where
  out : List Event
  total : ℚ
deriving DecidableEq, Repr

/-- The nested `xsleep` helper of `encode_xte`: scales the base duration by
the `sleep` multiplier, adds it to `total_seconds`, and emits the pause
instruction. -/
def xsleep (sl t : ℚ) (st : XteState) : XteState :=
  { out := st.out ++ [.sleep (t * sl)], total := st.total + t * sl }

/-- Body of the inner character loop of `encode_xte` (lines 95-111): state is
the `XteState` paired with the pending literal-run `buffer`. -/
def processChar (sl : ℚ) (stb : XteState × List Char) (c : Char) :
    XteState × List Char :=
  match specialKeyMap c with
  | some k =>
    let st1 := if stb.2.isEmpty then stb.1
      else xsleep sl (8/100) { stb.1 with out := stb.1.out ++ [.str stb.2] }
    let st2 := match k with
      | .chord m k2 =>
        { st1 with out := st1.out ++ [.keydown m, .key k2, .keyup m] }
      | .plain k2 => { st1 with out := st1.out ++ [.key k2] }
    (xsleep sl (5/100) st2, [])
  | none =>
    (xsleep sl (2/100) { stb.1 with out := stb.1.out ++ [.str [c]] }, stb.2)

/-- Body of the outer line loop of `encode_xte` (lines 93-117): run the
character loop with a fresh empty buffer, flush any remainder, then emit the
terminating `key Return` and the line-end pause. -/
def processLine (sl : ℚ) (st : XteState) (line : List Char) : XteState :=
  let p := line.foldl (processChar sl) (st, ([] : List Char))
  let st1 := if p.2.isEmpty then p.1
    else xsleep sl (8/100) { p.1 with out := p.1.out ++ [.str p.2] }
  xsleep sl (1/10) { st1 with out := st1.out ++ [.key "Return"] }

/-- The function `encode_xte(text, focus_delay, sleep)`: returns the instruction sequence
and the `total_seconds` estimate.  The initial focus pause is written first
and `total_seconds` starts at `focus_delay`. -/
def encode_xte (text : List Char) (focus_delay sl : ℚ) : List Event × ℚ :=
  let st0 : XteState := { out := [.sleep focus_delay], total := focus_delay }
  let st := (splitlines text).foldl (processLine sl) st0
  (st.out, st.total)

/-- Python's `int()` on a rational value: truncation toward zero. -/
def pyInt (q : ℚ) : Int :=
  q.num.tdiv (q.den : Int)

/-- Serialization of one instruction to its output line, as written by
`encode_xte`; a pause becomes `usleep` with the duration truncated to integer
microseconds. -/
def renderEvent : Event → String
  | .sleep t => "usleep " ++ toString (pyInt (t * 1000000)) ++ "\n"
  | .str s => "str " ++ String.mk s ++ "\n"
  | .key k => "key " ++ k ++ "\n"
  | .keydown k => "keydown " ++ k ++ "\n"
  | .keyup k => "keyup " ++ k ++ "\n"

/-- The full serialized xte script. -/
def serializeXte (evs : List Event) : String :=
  String.join (evs.map renderEvent)

/-- Sum of the exact durations of all pause events of a sequence. -/
def sleepSum : List Event → ℚ
  | [] => 0
  | .sleep t :: r => t + sleepSum r
  | _ :: r => sleepSum r

/-- Total delay, in microseconds, that a replaying agent observes when
executing the serialized `usleep` instructions. -/
def usleepTotalMicros : List Event → Int
  | [] => 0
  | .sleep t :: r => pyInt (t * 1000000) + usleepTotalMicros r
  | _ :: r => usleepTotalMicros r

/-! ## Derived description of the synthesizer output

Because the literal-run `buffer` is never filled by the character loop (the
non-special branch writes each character immediately), the whole output is a
per-character concatenation; the following definitions and the shape lemmas
make that explicit. -/

/-- The instructions one character of a line contributes. -/
def emitChar (sl : ℚ) (c : Char) : List Event :=
  match specialKeyMap c with
  | some (.chord m k) => [.keydown m, .key k, .keyup m, .sleep (5/100 * sl)]
  | some (.plain k) => [.key k, .sleep (5/100 * sl)]
  | none => [.str [c], .sleep (2/100 * sl)]

/-- The delay one character of a line contributes to `total_seconds`. -/
def emitTime (sl : ℚ) (c : Char) : ℚ :=
  match specialKeyMap c with
  | some _ => 5/100 * sl
  | none => 2/100 * sl

/-- The instructions one line contributes. -/
def lineEvents (sl : ℚ) (line : List Char) : List Event :=
  line.flatMap (emitChar sl) ++ [.key "Return", .sleep (1/10 * sl)]

/-- The delay one line contributes to `total_seconds`. -/
def lineTime (sl : ℚ) (line : List Char) : ℚ :=
  (line.map (emitTime sl)).sum + 1/10 * sl

/-- Whether a text ends in one of the synthesizer's line separators. -/
def endsWithLineBreak (text : List Char) : Bool :=
  match text.getLast? with
  | some c => isLineBreak c
  | none => false

/-- A duration that is a whole number of microseconds, i.e. one the
truncating `usleep` serialization represents exactly. -/
def wholeMicros (q : ℚ) : Prop :=
  ∃ n : ℤ, q * 1000000 = (n : ℚ)

def b64Char (n : Nat) : Char :=
  if n < 26 then Char.ofNat (65 + n)
  else if n < 52 then Char.ofNat (97 + (n - 26))
  else if n < 62 then Char.ofNat (48 + (n - 52))
  else if n = 62 then '+'
  else '/'

def b64Index (c : Char) : Option Nat :=
  if 65 ≤ c.toNat ∧ c.toNat ≤ 90 then some (c.toNat - 65)
  else if 97 ≤ c.toNat ∧ c.toNat ≤ 122 then some (c.toNat - 97 + 26)
  else if 48 ≤ c.toNat ∧ c.toNat ≤ 57 then some (c.toNat - 48 + 52)
  else if c = '+' then some 62
  else if c = '/' then some 63
  else none

def b64encode : List Nat → List Char
  | [] => []
  | [a] => [b64Char (a / 4), b64Char (a % 4 * 16), '=', '=']
  | [a, b] => [b64Char (a / 4), b64Char (a % 4 * 16 + b / 16),
               b64Char (b % 16 * 4), '=']
  | a :: b :: c :: rest =>
    b64Char (a / 4) :: b64Char (a % 4 * 16 + b / 16) ::
    b64Char (b % 16 * 4 + c / 64) :: b64Char (c % 64) :: b64encode rest

def b64decode : List Char → Option (List Nat)
  | [] => some []
  | c1 :: c2 :: c3 :: c4 :: rest =>
    match b64Index c1, b64Index c2 with
    | some s1, some s2 =>
      if c3 = '=' then
        if c4 = '=' ∧ rest = [] then some [s1 * 4 + s2 / 16] else none
      else
        match b64Index c3 with
        | some s3 =>
          if c4 = '=' then
            if rest = [] then some [s1 * 4 + s2 / 16, s2 % 16 * 16 + s3 / 4]
            else none
          else
            match b64Index c4 with
            | some s4 =>
              (b64decode rest).map
                (fun tl => (s1 * 4 + s2 / 16) :: (s2 % 16 * 16 + s3 / 4) ::
                  (s3 % 4 * 64 + s4) :: tl)
            | none => none
        | none => none
    | _, _ => none
  | _ => none

/-- Byte layout of `zlib.compress(data, level=9)`. -/
def zlibCompress (deflate adler : List Nat → List Nat) (d : List Nat) :
    List Nat :=
  120 :: 218 :: (deflate d ++ adler d)

/-- The `compress_and_encode` helper of both generator scripts: zlib-compress at level
9, then base64-encode. -/
def compress_and_encode (deflate adler : List Nat → List Nat)
    (data : List Nat) : List Char :=
  b64encode (zlibCompress deflate adler data)

/-- A concrete stand-in deflate coder (unary length prefix, then a zero
marker, then the payload) used to exhibit the round-trip at concrete
inputs. -/
def toyDeflate (b : List Nat) : List Nat :=
  List.replicate b.length 1 ++ 0 :: b

def toyInflateAux : Nat → List Nat → Option (List Nat)
  | n, 0 :: rest => some (rest.take n)
  | n, 1 :: rest => toyInflateAux (n + 1) rest
  | _, _ => none

/-- Raw decompressor matching `toyDeflate`; ignores any trailing bytes. -/
def toyInflate (xs : List Nat) : Option (List Nat) :=
  toyInflateAux 0 xs

/-- A stand-in Adler-32 trailer (4 bytes). -/
def toyAdler (_ : List Nat) : List Nat := [0, 0, 0, 0]

/-- The f-string template of `generate_powershell_script` in
`exe_to_ps1.py`: both substitution points are spliced in verbatim. -/
def generate_powershell_script (encoded_data output_filename : List Char) :
    List Char :=
  ("$b64 = \"").toList ++ encoded_data ++
  ("\"\n$compressed = [Convert]::FromBase64String($b64)\n$ms = New-Object System.IO.MemoryStream\n$ms.Write($compressed, 2, $compressed.Length - 2)\n$ms.Seek(0, 0) | Out-Null\n\n$ds = New-Object System.IO.Compression.DeflateStream($ms, [System.IO.Compression.CompressionMode]::Decompress)\n$out = New-Object System.IO.MemoryStream\n$ds.CopyTo($out)\n$ms.Close()\n\n[System.IO.File]::WriteAllBytes(\"$env:USERPROFILE\\").toList ++
  output_filename ++
  ("\", $out.ToArray())\n$out.Close()\n").toList

/-- Whether a left-to-right scan of the script ends inside a double-quoted
string literal (PowerShell double quotes toggle string context; the template
uses no backtick escapes). -/
def quoteScanInside (s : List Char) : Bool :=
  s.foldl (fun inStr c => if c = Char.ofNat 34 then !inStr else inStr) false

/-- The minimal well-formedness property the escaping claim is about: every
double-quoted literal that the script opens is closed. -/
def psQuotesBalanced (s : List Char) : Bool :=
  !(quoteScanInside s)

/-! ## CLI entry point model (from `exe_to_ps1.py` `main`) -/

/-- Observable outcome of one invocation. -/
structure RunResult where
  exitCode : Nat
  stdout : List String
  stderrOut : List String
  written : Option (List Char)
deriving DecidableEq, Repr

/-- Model of `main` of `exe_to_ps1.py`.  `readData` is the outcome of
reading the input file (`none` when `open`/`read` raises) and `writeErr` the
outcome of writing the output file (`some msg` when `open`/`write` raises,
modelled atomically).  The read failure branch is `except Exception: exit(1)`
with no message; the write failure branch prints the cause to stderr. -/
def ps1Main (deflate adler : List Nat → List Nat)
    (readData : Option (List Nat)) (writeErr : Option String)
    (outfile : String) (output_bin_name : List Char) : RunResult :=
  match readData with
  | none => { exitCode := 1, stdout := [], stderrOut := [], written := none }
  | some data =>
    let script := generate_powershell_script
      (compress_and_encode deflate adler data) output_bin_name
    match writeErr with
    | some e =>
      { exitCode := 1, stdout := [],
        stderrOut := ["Failed to write output: " ++ e ++ "\n"],
        written := none }
    | none =>
      { exitCode := 0,
        stdout := ["\n[+] Wrote the PS1 script to " ++ outfile ++
          "\n\t Run: cat " ++ outfile ++ " |xclip -selection clipboard"],
        stderrOut := [], written := some script }

/-! ## Helpers for the claim theorems -/

/-- Recognizer for literal-text instructions. -/
def isStrEvent : Event → Bool
  | .str _ => true
  | _ => false

/-- Recognizer for chord entries of the key map. -/
def isChordOpt : Option KeyAct → Bool
  | some (.chord _ _) => true
  | _ => false

/-! ## Lemmas and claim theorems -/

lemma processChar_empty (sl : ℚ) (c : Char) (st : XteState) :
    processChar sl (st, []) c =
      ({ out := st.out ++ emitChar sl c,
         total := st.total + emitTime sl c }, []) := by
  unfold processChar emitChar emitTime
  cases h : specialKeyMap c with
  | none => simp [xsleep]
  | some k => cases k <;> simp [xsleep, List.append_assoc]

lemma foldl_processChar (sl : ℚ) (line : List Char) : ∀ st : XteState,
    line.foldl (processChar sl) (st, []) =
      ({ out := st.out ++ line.flatMap (emitChar sl),
         total := st.total + (line.map (emitTime sl)).sum }, []) := by
  induction line with
  | nil => intro st; simp
  | cons c cs ih =>
    intro st
    simp only [List.foldl_cons, processChar_empty, ih, List.flatMap_cons,
      List.map_cons, List.sum_cons, List.append_assoc, add_assoc]

lemma processLine_eq (sl : ℚ) (st : XteState) (line : List Char) :
    processLine sl st line =
      { out := st.out ++ lineEvents sl line,
        total := st.total + lineTime sl line } := by
  unfold processLine lineEvents lineTime
  rw [foldl_processChar]
  simp [xsleep, List.append_assoc, add_assoc]

lemma foldl_processLine (sl : ℚ) (lines : List (List Char)) :
    ∀ st : XteState,
    lines.foldl (processLine sl) st =
      { out := st.out ++ lines.flatMap (lineEvents sl),
        total := st.total + (lines.map (lineTime sl)).sum } := by
  induction lines with
  | nil => intro st; simp
  | cons l ls ih =>
    intro st
    simp only [List.foldl_cons, processLine_eq, ih, List.flatMap_cons,
      List.map_cons, List.sum_cons, List.append_assoc, add_assoc]

/-- Shape of the synthesizer output: one focus pause, then, per line, the
per-character instructions followed by `key Return` and the line-end pause. -/
lemma encode_xte_eq (text : List Char) (fd sl : ℚ) :
    encode_xte text fd sl =
      (.sleep fd :: (splitlines text).flatMap (lineEvents sl),
       fd + ((splitlines text).map (lineTime sl)).sum) := by
  unfold encode_xte
  simp only [foldl_processLine]
  simp

/-- Projection form of `encode_xte_eq` for the instruction stream. -/
lemma encode_xte_out (text : List Char) (fd sl : ℚ) :
    (encode_xte text fd sl).1 =
      .sleep fd :: (splitlines text).flatMap (lineEvents sl) := by
  rw [encode_xte_eq]

/-- Projection form of `encode_xte_eq` for `total_seconds`. -/
lemma encode_xte_total (text : List Char) (fd sl : ℚ) :
    (encode_xte text fd sl).2 =
      fd + ((splitlines text).map (lineTime sl)).sum := by
  rw [encode_xte_eq]

/-! ## Sleep bookkeeping -/

lemma sleepSum_append (a b : List Event) :
    sleepSum (a ++ b) = sleepSum a + sleepSum b := by
  induction a with
  | nil => simp [sleepSum]
  | cons e r ih => cases e <;> simp [sleepSum, ih, add_assoc]

lemma sleepSum_emitChar (sl : ℚ) (c : Char) :
    sleepSum (emitChar sl c) = emitTime sl c := by
  unfold emitChar emitTime
  cases h : specialKeyMap c with
  | none => simp [sleepSum]
  | some k => cases k <;> simp [sleepSum]

lemma sleepSum_lineEvents (sl : ℚ) (l : List Char) :
    sleepSum (lineEvents sl l) = lineTime sl l := by
  unfold lineEvents lineTime
  rw [sleepSum_append]
  congr 1
  · induction l with
    | nil => simp [sleepSum]
    | cons c cs ih => simp [sleepSum_append, sleepSum_emitChar, ih]
  · simp [sleepSum]

lemma sleepSum_flatMap_lineEvents (sl : ℚ) (ls : List (List Char)) :
    sleepSum (ls.flatMap (lineEvents sl)) = (ls.map (lineTime sl)).sum := by
  induction ls with
  | nil => simp [sleepSum]
  | cons l ls ih => simp [sleepSum_append, sleepSum_lineEvents, ih]

/-- The accumulator `total_seconds` is exactly the sum of the durations of the emitted pause
events (the initial focus pause being the first of them). -/
lemma total_eq_sleepSum (text : List Char) (fd sl : ℚ) :
    (encode_xte text fd sl).2 = sleepSum (encode_xte text fd sl).1 := by
  rw [encode_xte_eq]
  simp [sleepSum, sleepSum_flatMap_lineEvents]

/-! ## Equations and structural facts about `splitlines` -/

lemma splitlinesAux_cons_nonbreak (c : Char) (hc : isLineBreak c = false)
    (rest acc : List Char) :
    splitlinesAux (c :: rest) acc = splitlinesAux rest (c :: acc) := by
  conv_lhs => rw [splitlinesAux.eq_def]
  simp [hc]

lemma splitlinesAux_cons_break (c : Char) (hc : isLineBreak c = true)
    (e : Char) (rest2 acc : List Char) (h2 : ¬(c = '\r' ∧ e = '\n')) :
    splitlinesAux (c :: e :: rest2) acc =
      acc.reverse :: splitlinesAux (e :: rest2) [] := by
  conv_lhs => rw [splitlinesAux.eq_def]
  simp only [hc, if_true]
  rw [if_neg]
  simpa using h2

lemma splitlinesAux_crlf (rest acc : List Char) :
    splitlinesAux ('\r' :: '\n' :: rest) acc =
      acc.reverse :: splitlinesAux rest [] := by
  conv_lhs => rw [splitlinesAux.eq_def]
  simp [isLineBreak]

lemma splitlinesAux_break_nil (c : Char) (hc : isLineBreak c = true)
    (acc : List Char) :
    splitlinesAux [c] acc = [acc.reverse] := by
  conv_lhs => rw [splitlinesAux.eq_def]
  simp [hc]

lemma splitlinesAux_nil (acc : List Char) :
    splitlinesAux [] acc = if acc.isEmpty then [] else [acc.reverse] := by
  rw [splitlinesAux.eq_def]

/-- A line-break character that is not the first half of a `"\r\n"` pair
closes the current line. -/
lemma splitlinesAux_cons_break_any (d : Char) (hd : isLineBreak d = true)
    (rest acc : List Char) (h2 : d = '\r' → rest.head? ≠ some '\n') :
    splitlinesAux (d :: rest) acc = acc.reverse :: splitlinesAux rest [] := by
  cases rest with
  | nil => rw [splitlinesAux_break_nil d hd, splitlinesAux_nil]; simp
  | cons e rest2 =>
    refine splitlinesAux_cons_break d hd e rest2 acc ?_
    rintro ⟨hdr, her⟩
    exact h2 hdr (by simp [her])

/-- Appending `'\n'` after a final non-break character does not change the
line decomposition. -/
lemma splitlinesAux_append_lf (c : Char) (hc : isLineBreak c = false) :
    ∀ (xs acc : List Char),
      splitlinesAux (xs ++ [c, '\n']) acc = splitlinesAux (xs ++ [c]) acc := by
  have hcr : c ≠ '\r' := by
    intro h; rw [h] at hc; simp [isLineBreak] at hc
  have hlf : c ≠ '\n' := by
    intro h; rw [h] at hc; simp [isLineBreak] at hc
  intro xs
  induction xs with
  | nil =>
    intro acc
    simp only [List.nil_append]
    rw [splitlinesAux_cons_nonbreak c hc ['\n'] acc,
      splitlinesAux_cons_nonbreak c hc [] acc,
      splitlinesAux_break_nil '\n' (by simp [isLineBreak]),
      splitlinesAux_nil]
    simp
  | cons d xs' ih =>
    intro acc
    simp only [List.cons_append]
    by_cases hd : isLineBreak d
    · cases hxs : xs' with
      | nil =>
        subst hxs
        simp only [List.nil_append] at ih ⊢
        rw [splitlinesAux_cons_break d hd c ['\n'] acc (by tauto),
          splitlinesAux_cons_break d hd c [] acc (by tauto)]
        exact congrArg _ (ih [])
      | cons e xs'' =>
        subst hxs
        by_cases hcrlf : d = '\r' ∧ e = '\n'
        · obtain ⟨hd1, he1⟩ := hcrlf
          subst hd1; subst he1
          simp only [List.cons_append]
          rw [splitlinesAux_crlf, splitlinesAux_crlf]
          have h2 := ih []
          simp only [List.cons_append] at h2
          rw [splitlinesAux_cons_break_any '\n' (by simp [isLineBreak]) _ []
              (fun h => absurd h (by decide)),
            splitlinesAux_cons_break_any '\n' (by simp [isLineBreak]) _ []
              (fun h => absurd h (by decide))] at h2
          injection h2 with h2a h2b
          exact congrArg _ h2b
        · simp only [List.cons_append]
          rw [splitlinesAux_cons_break d hd e _ acc (by tauto),
            splitlinesAux_cons_break d hd e _ acc (by tauto)]
          have h2 := ih []
          simp only [List.cons_append] at h2
          exact congrArg _ h2
    · rw [splitlinesAux_cons_nonbreak d (by simpa using hd),
        splitlinesAux_cons_nonbreak d (by simpa using hd)]
      exact ih (d :: acc)

lemma splitlines_append_lf (text : List Char) (hne : text ≠ [])
    (hend : endsWithLineBreak text = false) :
    splitlines (text ++ ['\n']) = splitlines text := by
  rcases (List.eq_nil_or_concat text) with h | ⟨xs, c, h⟩
  · exact absurd h hne
  · rw [List.concat_eq_append] at h
    subst h
    have hlast : isLineBreak c = false := by
      unfold endsWithLineBreak at hend
      rwa [List.getLast?_concat] at hend
    unfold splitlines
    rw [List.append_assoc]
    exact splitlinesAux_append_lf c hlast xs []

/-- Every non-break character of the input occurs in one of the lines
produced by `splitlines`. -/
lemma exists_line_mem (c : Char) (hc : isLineBreak c = false) :
    ∀ (xs acc : List Char), c ∈ xs ∨ c ∈ acc →
      ∃ l ∈ splitlinesAux xs acc, c ∈ l := by
  intro xs
  induction xs with
  | nil =>
    intro acc h
    rcases h with h | h
    · simp at h
    · rw [splitlinesAux_nil, if_neg (by simpa using List.ne_nil_of_mem h)]
      exact ⟨acc.reverse, by simp, by simpa using h⟩
  | cons d xs' ih =>
    intro acc h
    by_cases hd : isLineBreak d
    · have hcd : c ≠ d := fun hcontra => by
        rw [hcontra] at hc; rw [hc] at hd; exact Bool.false_ne_true hd
      have h' : c ∈ xs' ∨ c ∈ acc := by
        rcases h with h | h
        · rcases List.mem_cons.mp h with h1 | h1
          · exact absurd h1 hcd
          · exact Or.inl h1
        · exact Or.inr h
      cases hxs : xs' with
      | nil =>
        subst hxs
        have hacc : c ∈ acc := by
          rcases h' with h1 | h1
          · simp at h1
          · exact h1
        rw [splitlinesAux_break_nil d hd]
        exact ⟨acc.reverse, by simp, by simpa using hacc⟩
      | cons e xs'' =>
        subst hxs
        by_cases hcrlf : d = '\r' ∧ e = '\n'
        · obtain ⟨hd1, he1⟩ := hcrlf
          subst hd1; subst he1
          rw [splitlinesAux_crlf]
          rcases h' with h1 | h1
          · have hce : c ≠ '\n' := fun hcontra => by
              rw [hcontra] at hc; simp [isLineBreak] at hc
            have h2 : c ∈ xs'' := by
              rcases List.mem_cons.mp h1 with h3 | h3
              · exact absurd h3 hce
              · exact h3
            obtain ⟨l, hl, hcl⟩ := ih [] (Or.inl (List.mem_cons_of_mem _ h2))
            rw [splitlinesAux_cons_break_any '\n' (by simp [isLineBreak]) _ []
                (fun hco => absurd hco (by decide))] at hl
            rcases List.mem_cons.mp hl with h4 | h4
            · subst h4; simp at hcl
            · exact ⟨l, List.mem_cons_of_mem _ h4, hcl⟩
          · exact ⟨acc.reverse, by simp, by simpa using h1⟩
        · rw [splitlinesAux_cons_break d hd e xs'' acc (by tauto)]
          rcases h' with h1 | h1
          · obtain ⟨l, hl, hcl⟩ := ih [] (Or.inl h1)
            exact ⟨l, List.mem_cons_of_mem _ hl, hcl⟩
          · exact ⟨acc.reverse, by simp, by simpa using h1⟩
    · rw [splitlinesAux_cons_nonbreak d (by simpa using hd)]
      apply ih
      rcases h with h1 | h1
      · rcases List.mem_cons.mp h1 with h2 | h2
        · exact Or.inr (h2 ▸ List.mem_cons_self _ _)
        · exact Or.inl h2
      · exact Or.inr (List.mem_cons_of_mem _ h1)

lemma exists_line_mem_splitlines (c : Char) (hc : isLineBreak c = false)
    (text : List Char) (hmem : c ∈ text) :
    ∃ l ∈ splitlines text, c ∈ l :=
  exists_line_mem c hc text [] (Or.inl hmem)

/-- The image of a member under `flatMap` occurs contiguously in the
flattened list. -/
lemma contiguous_flatMap_of_mem {α β : Type} (f : α → List β) :
    ∀ (l : List α) (x : α), x ∈ l → f x <:+: l.flatMap f := by
  intro l
  induction l with
  | nil => intro x hx; simp at hx
  | cons a as ih =>
    intro x hx
    rcases List.mem_cons.mp hx with h | h
    · subst h
      rw [List.flatMap_cons]
      exact ⟨[], as.flatMap f, by simp⟩
    · have h2 := ih x h
      rw [List.flatMap_cons]
      exact h2.trans ⟨f a, [], by simp⟩

/-! ## Exact microsecond serialization -/

lemma pyInt_intCast (n : ℤ) : pyInt ((n : ℚ)) = n := by
  unfold pyInt
  rw [Rat.num_intCast, Rat.den_intCast]
  simp

lemma usleepTotal_of_whole :
    ∀ evs : List Event, (∀ t : ℚ, Event.sleep t ∈ evs → wholeMicros t) →
      ((usleepTotalMicros evs : ℚ) = sleepSum evs * 1000000) := by
  intro evs
  induction evs with
  | nil => intro _; simp [usleepTotalMicros, sleepSum]
  | cons e r ih =>
    intro h
    have hr : (usleepTotalMicros r : ℚ) = sleepSum r * 1000000 :=
      ih (fun t ht => h t (List.mem_cons_of_mem _ ht))
    cases e with
    | sleep t =>
      obtain ⟨n, hn⟩ := h t (List.mem_cons_self _ _)
      simp only [usleepTotalMicros, sleepSum]
      push_cast
      rw [hn, pyInt_intCast, hr]
      have hd : (t + sleepSum r) * 1000000 =
          t * 1000000 + sleepSum r * 1000000 := by ring
      rw [hd, hn]
    | str s => simpa [usleepTotalMicros, sleepSum] using hr
    | key k => simpa [usleepTotalMicros, sleepSum] using hr
    | keydown k => simpa [usleepTotalMicros, sleepSum] using hr
    | keyup k => simpa [usleepTotalMicros, sleepSum] using hr

/-! ## Compressor/encoder (from `exe_to_ps1.py`) -/

lemma b64Index_b64Char : ∀ n, n < 64 → b64Index (b64Char n) = some n := by
  decide

lemma b64Char_ne_pad : ∀ n, n < 64 → b64Char n ≠ '=' := by
  decide

theorem b64_roundtrip :
    ∀ bs : List Nat, (∀ x ∈ bs, x < 256) →
      b64decode (b64encode bs) = some bs := by
  intro bs
  induction bs using b64encode.induct with
  | case1 =>
    intro _
    simp [b64encode, b64decode]
  | case2 a =>
    intro h
    have ha : a < 256 := h a (by simp)
    have i1 := b64Index_b64Char (a / 4) (by omega)
    have i2 := b64Index_b64Char (a % 4 * 16) (by omega)
    simp only [b64encode, b64decode]
    rw [i1, i2]
    simp
    omega
  | case3 a b =>
    intro h
    have ha : a < 256 := h a (by simp)
    have hb : b < 256 := h b (by simp)
    have i1 := b64Index_b64Char (a / 4) (by omega)
    have i2 := b64Index_b64Char (a % 4 * 16 + b / 16) (by omega)
    have i3 := b64Index_b64Char (b % 16 * 4) (by omega)
    have n3 := b64Char_ne_pad (b % 16 * 4) (by omega)
    simp only [b64encode, b64decode]
    rw [i1, i2]
    simp [n3, i3]
    omega
  | case4 a b c rest ih =>
    intro h
    have ha : a < 256 := h a (by simp)
    have hb : b < 256 := h b (by simp)
    have hc : c < 256 := h c (by simp)
    have hrest : ∀ x ∈ rest, x < 256 := fun x hx => h x (by simp [hx])
    have i1 := b64Index_b64Char (a / 4) (by omega)
    have i2 := b64Index_b64Char (a % 4 * 16 + b / 16) (by omega)
    have i3 := b64Index_b64Char (b % 16 * 4 + c / 64) (by omega)
    have i4 := b64Index_b64Char (c % 64) (by omega)
    have n3 := b64Char_ne_pad (b % 16 * 4 + c / 64) (by omega)
    have n4 := b64Char_ne_pad (c % 64) (by omega)
    simp only [b64encode, b64decode]
    rw [i1, i2]
    simp [n3, i3, n4, i4, ih hrest]
    omega

/-! ## zlib stream layout and the dropper-side decode contract

`zlib.compress(data, 9)` produces the 2-byte zlib header `0x78 0xDA`, then a
raw-deflate body, then a 4-byte Adler-32 trailer.  The deflate coder itself
lives in the zlib library, so it enters the development as a parameter pair
`(deflate, inflate)` constrained by the library's contract: raw-inflating a
valid deflate stream recovers the input and ignores trailing bytes (the
behavior of the target's raw `DeflateStream`, which stops at the final
block and never reads the trailer). -/

lemma toyInflateAux_spec :
    ∀ (m n : Nat) (rest : List Nat),
      toyInflateAux n (List.replicate m 1 ++ 0 :: rest) =
        some (rest.take (n + m)) := by
  intro m
  induction m with
  | zero => intro n rest; simp [toyInflateAux]
  | succ m ih =>
    intro n rest
    rw [List.replicate_succ, List.cons_append]
    show toyInflateAux (n + 1) _ = _
    rw [ih]
    have h : n + 1 + m = n + (m + 1) := by omega
    rw [h]

lemma toyInflate_toyDeflate (b extra : List Nat) :
    toyInflate (toyDeflate b ++ extra) = some b := by
  unfold toyInflate toyDeflate
  rw [List.append_assoc, List.cons_append, toyInflateAux_spec]
  simp [List.take_left]

/-! ## Dropper script generator (from `exe_to_ps1.py`) -/

lemma flatMap_congr {A B : Type} {l : List A} {f g : A → List B}
    (h : ∀ x ∈ l, f x = g x) : l.flatMap f = l.flatMap g := by
  induction l with
  | nil => simp
  | cons a as ih =>
    simp only [List.flatMap_cons, h a (by simp),
      ih (fun x hx => h x (by simp [hx]))]

lemma chord_not_break (c : Char) (m k : String)
    (hc : specialKeyMap c = some (.chord m k)) : isLineBreak c = false := by
  cases hb : isLineBreak c
  · rfl
  · exfalso
    have hco : isChordOpt (specialKeyMap c) = true := by rw [hc]; rfl
    unfold isLineBreak at hb
    simp only [Bool.or_eq_true, decide_eq_true_eq, or_assoc] at hb
    rcases hb with h|h|h|h|h|h|h|h|h|h <;> (subst h; revert hco; decide)

/-! ## The claims -/

/-- Claim C1: round-trip — base64-decoding the output of
`compress_and_encode` (zlib level-9 compression, then base64), skipping
exactly the first 2 bytes of the decoded buffer (as the generated dropper
does with `$ms.Write($compressed, 2, $compressed.Length - 2)`), and
raw-deflate-decompressing the remainder reproduces the input bytes exactly.
The zlib deflate coder is a parameter constrained by the library contract
`hinv` (raw inflation recovers the input and ignores trailing bytes). -/
theorem c1_roundtrip_decode_skip2_inflate
    (deflate adler : List Nat → List Nat)
    (inflate : List Nat → Option (List Nat))
    (hinv : ∀ b extra, inflate (deflate b ++ extra) = some b)
    (B : List Nat) (_hB : ∀ x ∈ B, x < 256)
    (hdef : ∀ x ∈ deflate B, x < 256) (hadl : ∀ x ∈ adler B, x < 256) :
    (b64decode (compress_and_encode deflate adler B)).bind
      (fun bytes => inflate (bytes.drop 2)) = some B := by
  have hall : ∀ x ∈ zlibCompress deflate adler B, x < 256 := by
    intro x hx
    unfold zlibCompress at hx
    rcases List.mem_cons.mp hx with h | h
    · omega
    · rcases List.mem_cons.mp h with h | h
      · omega
      · rcases List.mem_append.mp h with h | h
        · exact hdef x h
        · exact hadl x h
  unfold compress_and_encode
  rw [b64_roundtrip _ hall]
  unfold zlibCompress
  simp only [Option.some_bind, List.drop_succ_cons, List.drop_zero]
  exact hinv B (adler B)

theorem c1_roundtrip_witness :
    (b64decode (compress_and_encode toyDeflate toyAdler [5, 200, 7])).bind
      (fun bytes => toyInflate (bytes.drop 2)) = some [5, 200, 7] :=
  c1_roundtrip_decode_skip2_inflate toyDeflate toyAdler toyInflate
    toyInflate_toyDeflate [5, 200, 7] (by decide) (by decide) (by decide)

/-- Claim C2 (counterexample): the text `"ab"` has one line and no
`special_key_map` characters, yet the synthesized sequence contains two
`str` instructions, not one — each non-special character is written
immediately as its own single-character `str`, and the literal-run buffer is
never filled. -/
theorem c2_counterexample :
    (splitlines ("ab".toList)).length = 1 ∧
    ((encode_xte ("ab".toList) 1 1).1.countP isStrEvent) = 2 := by
  refine ⟨by decide, ?_⟩
  have ha : specialKeyMap 'a' = none := by decide
  have hb : specialKeyMap 'b' = none := by decide
  have hs : splitlines ("ab".toList) = [['a', 'b']] := by decide
  have h1 : (encode_xte ("ab".toList) 1 1).1 =
      [.sleep 1, .str ['a'], .sleep (1/50), .str ['b'], .sleep (1/50),
       .key "Return", .sleep (1/10)] := by
    rw [encode_xte_eq, hs]
    simp only [lineEvents, emitChar, ha, hb, List.flatMap_cons,
      List.flatMap_nil, List.append_nil, List.cons_append, List.nil_append]
    norm_num
  rw [h1]
  rfl

/-- Claim C2 (amended): for a text whose lines contain no `special_key_map`
characters, every character is emitted as its own single-character `str`
instruction followed by the per-character pause; each line ends with
`key Return` and the line-end pause, and no chord instructions occur. -/
theorem c2_unmapped_chars_per_char_str (text : List Char) (fd sl : ℚ)
    (h : ∀ l ∈ splitlines text, ∀ c ∈ l, specialKeyMap c = none) :
    (encode_xte text fd sl).1 =
      .sleep fd :: (splitlines text).flatMap
        (fun l =>
          l.flatMap (fun c => [.str [c], .sleep (2/100 * sl)]) ++
            [.key "Return", .sleep (1/10 * sl)]) := by
  rw [encode_xte_out]
  congr 1
  apply flatMap_congr
  intro l hl
  unfold lineEvents
  congr 1
  apply flatMap_congr
  intro c hc
  unfold emitChar
  rw [h l hl c hc]

theorem c2_unmapped_chars_witness :
    (∀ l ∈ splitlines ("ab".toList), ∀ c ∈ l, specialKeyMap c = none) ∧
    (encode_xte ("ab".toList) 1 1).1 =
      .sleep 1 :: (splitlines ("ab".toList)).flatMap
        (fun l =>
          l.flatMap (fun c => [.str [c], .sleep (2/100 * 1)]) ++
            [.key "Return", .sleep (1/10 * 1)]) :=
  ⟨by decide, c2_unmapped_chars_per_char_str ("ab".toList) 1 1 (by decide)⟩

/-- Claim C3 (counterexample): with rate multiplier 1/3 the serialized
`usleep` total (truncated to whole microseconds) differs from the reported
`total_seconds`: for input `"a"`, the agent observes 1039999 µs while the
budget says 1.04 s = 1040000 µs. -/
theorem c3_truncation_counterexample :
    ((usleepTotalMicros (encode_xte ['a'] 1 (1/3)).1 : ℚ) ≠
      (encode_xte ['a'] 1 (1/3)).2 * 1000000) := by
  have ha : specialKeyMap 'a' = none := by decide
  have hs : splitlines ['a'] = [['a']] := by decide
  have h1 : (encode_xte ['a'] 1 (1/3)).1 =
      [.sleep 1, .str ['a'], .sleep (2/100 * (1/3)), .key "Return",
       .sleep (1/10 * (1/3))] := by
    rw [encode_xte_eq, hs]
    simp only [lineEvents, emitChar, ha, List.flatMap_cons, List.flatMap_nil,
      List.append_nil, List.cons_append, List.nil_append]
  have h2 : (encode_xte ['a'] 1 (1/3)).2 = 26/25 := by
    rw [encode_xte_eq, hs]
    simp only [lineTime, emitTime, ha, List.map_cons, List.map_nil,
      List.sum_cons, List.sum_nil]
    norm_num
  rw [h1, h2]
  simp only [usleepTotalMicros]
  have p1 : pyInt ((1 : ℚ) * 1000000) = 1000000 := by
    have h : ((1 : ℚ) * 1000000) = ((1000000 : ℤ) : ℚ) := by norm_num
    rw [h, pyInt_intCast]
  have p2 : pyInt ((2/100 * (1/3) : ℚ) * 1000000) = 6666 := by
    unfold pyInt
    have hn : ((2/100 * (1/3) : ℚ) * 1000000).num = 20000 := by norm_num
    have hd : ((2/100 * (1/3) : ℚ) * 1000000).den = 3 := by norm_num
    rw [hn, hd]
    decide
  have p3 : pyInt ((1/10 * (1/3) : ℚ) * 1000000) = 33333 := by
    unfold pyInt
    have hn : ((1/10 * (1/3) : ℚ) * 1000000).num = 100000 := by norm_num
    have hd : ((1/10 * (1/3) : ℚ) * 1000000).den = 3 := by norm_num
    rw [hn, hd]
    decide
  rw [p1, p2, p3]
  norm_num

/-- Claim C3 (amended): the reported `total_seconds` equals the sum of every
pause duration in the generated sequence (the initial focus delay being the
first pause); and whenever every pause duration is a whole number of
microseconds, it also equals the total delay a replaying agent observes
executing the serialized integer-microsecond `usleep` instructions.  (With
fractional microseconds the truncation makes the two differ.) -/
theorem c3_timing_budget (text : List Char) (fd sl : ℚ) :
    (encode_xte text fd sl).2 = sleepSum (encode_xte text fd sl).1 ∧
    ((∀ t : ℚ, Event.sleep t ∈ (encode_xte text fd sl).1 → wholeMicros t) →
      ((usleepTotalMicros (encode_xte text fd sl).1 : ℚ) =
        (encode_xte text fd sl).2 * 1000000)) := by
  refine ⟨total_eq_sleepSum text fd sl, fun h => ?_⟩
  rw [total_eq_sleepSum, usleepTotal_of_whole _ h]

theorem c3_timing_budget_witness :
    (∀ t : ℚ, Event.sleep t ∈ (encode_xte ['a'] 1 1).1 → wholeMicros t) ∧
    ((usleepTotalMicros (encode_xte ['a'] 1 1).1 : ℚ) =
      (encode_xte ['a'] 1 1).2 * 1000000) := by
  have ha : specialKeyMap 'a' = none := by decide
  have hs : splitlines ['a'] = [['a']] := by decide
  have h1 : (encode_xte ['a'] 1 1).1 =
      [.sleep 1, .str ['a'], .sleep (2/100 * 1), .key "Return",
       .sleep (1/10 * 1)] := by
    rw [encode_xte_eq, hs]
    simp only [lineEvents, emitChar, ha, List.flatMap_cons, List.flatMap_nil,
      List.append_nil, List.cons_append, List.nil_append]
  have hw : ∀ t : ℚ, Event.sleep t ∈ (encode_xte ['a'] 1 1).1 →
      wholeMicros t := by
    intro t ht
    rw [h1] at ht
    simp at ht
    rcases ht with h | h | h
    · exact ⟨1000000, by rw [h]; norm_num⟩
    · exact ⟨20000, by rw [h]; norm_num⟩
    · exact ⟨100000, by rw [h]; norm_num⟩
  exact ⟨hw, (c3_timing_budget ['a'] 1 1).2 hw⟩

/-- Claim C4: a character mapped to a modifier+key chord is synthesized as
modifier-down, base key, modifier-up — three instructions in that order
(followed by the pause), never as a bare named-key instruction; the three
instructions occur contiguously in the output of any text containing the
character. -/
theorem c4_chord_three_subevents (text : List Char) (fd sl : ℚ)
    (c : Char) (m k : String)
    (hc : specialKeyMap c = some (.chord m k)) (hmem : c ∈ text) :
    emitChar sl c =
      [.keydown m, .key k, .keyup m, .sleep (5/100 * sl)] ∧
    [.keydown m, .key k, .keyup m] <:+: (encode_xte text fd sl).1 := by
  have hemit : emitChar sl c =
      [.keydown m, .key k, .keyup m, .sleep (5/100 * sl)] := by
    unfold emitChar
    rw [hc]
  refine ⟨hemit, ?_⟩
  have hnb : isLineBreak c = false := chord_not_break c m k hc
  obtain ⟨l, hl, hcl⟩ := exists_line_mem_splitlines c hnb text hmem
  rw [encode_xte_eq]
  have h1 : emitChar sl c <:+: l.flatMap (emitChar sl) :=
    contiguous_flatMap_of_mem _ l c hcl
  have h2 : l.flatMap (emitChar sl) <:+: lineEvents sl l := by
    unfold lineEvents
    exact ⟨[], [.key "Return", .sleep (1/10 * sl)], by simp⟩
  have h3 : lineEvents sl l <:+: (splitlines text).flatMap (lineEvents sl) :=
    contiguous_flatMap_of_mem _ _ _ hl
  have h4 : (splitlines text).flatMap (lineEvents sl) <:+:
      .sleep fd :: (splitlines text).flatMap (lineEvents sl) :=
    ⟨[.sleep fd], [], by simp⟩
  have h5 : [Event.keydown m, Event.key k, Event.keyup m] <:+:
      emitChar sl c := by
    rw [hemit]
    exact ⟨[], [.sleep (5/100 * sl)], rfl⟩
  exact (((h5.trans h1).trans h2).trans h3).trans h4

theorem c4_chord_witness :
    specialKeyMap (Char.ofNat 123) =
      some (.chord "Shift_L" "bracketleft") ∧
    Char.ofNat 123 ∈ [Char.ofNat 123] ∧
    (emitChar 1 (Char.ofNat 123) =
      [.keydown "Shift_L", .key "bracketleft", .keyup "Shift_L",
       .sleep (5/100 * 1)] ∧
     [.keydown "Shift_L", .key "bracketleft", .keyup "Shift_L"] <:+:
       (encode_xte [Char.ofNat 123] 1 1).1) :=
  ⟨by decide, by decide,
    c4_chord_three_subevents [Char.ofNat 123] 1 1 (Char.ofNat 123)
      "Shift_L" "bracketleft" (by decide) (by decide)⟩

set_option maxRecDepth 8000 in

/-- Claim C5: the dropper template interpolates the output filename verbatim
into a double-quoted PowerShell string literal, so a filename containing a
quote character breaks the literal: the generated script's double quotes no
longer balance, while a quote-free filename leaves them balanced.  (The spec
requires the script to stay well-formed for any printable filename; the code
does not escape `output_filename`.) -/
theorem c5_quote_breaks_literal :
    psQuotesBalanced
      (generate_powershell_script ("QUJD".toList) ("rdp2tcp.exe".toList)) =
      true ∧
    psQuotesBalanced
      (generate_powershell_script ("QUJD".toList) ("a\"b.exe".toList)) =
      false := by
  decide

/-- Claim C6 (counterexample): `"echo hi\n"` with focus delay 1 and rate
multiplier 1 does not produce the claimed 9-event sequence with buffered
literal runs, and the budget is not 1.31 s. -/
theorem c6_scenario_counterexample :
    (encode_xte ("echo hi\n".toList) 1 1).1 ≠
      [.sleep 1, .str ("echo".toList), .sleep (8/100), .key "space",
       .sleep (5/100), .str ("hi".toList), .sleep (8/100), .key "Return",
       .sleep (1/10)] ∧
    (encode_xte ("echo hi\n".toList) 1 1).2 ≠ 131/100 := by
  have hs : splitlines ("echo hi\n".toList) =
      [['e', 'c', 'h', 'o', ' ', 'h', 'i']] := by decide
  have he : specialKeyMap 'e' = none := by decide
  have hc : specialKeyMap 'c' = none := by decide
  have hh : specialKeyMap 'h' = none := by decide
  have ho : specialKeyMap 'o' = none := by decide
  have hi : specialKeyMap 'i' = none := by decide
  have hsp : specialKeyMap ' ' = some (.plain "space") := by decide
  constructor
  · intro h
    have hlen := congrArg List.length h
    rw [encode_xte_out, hs] at hlen
    simp [lineEvents, emitChar, he, hc, hh, ho, hi, hsp] at hlen
  · intro h
    rw [encode_xte_total, hs] at h
    simp only [lineTime, emitTime, he, hc, hh, ho, hi, hsp, List.map_cons,
      List.map_nil, List.sum_cons, List.sum_nil] at h
    norm_num at h

/-- Claim C6 (amended): `"echo hi\n"` with focus delay 1 and rate multiplier
1 yields the focus pause, then each non-special character as its own
single-character `str` with a 0.02 s pause, `key space` with a 0.05 s pause
for the blank, and `key Return` with the 0.1 s line-end pause; the reported
budget is 1.27 s. -/
theorem c6_scenario_actual_trace :
    (encode_xte ("echo hi\n".toList) 1 1).1 =
      [.sleep 1,
       .str ['e'], .sleep (1/50), .str ['c'], .sleep (1/50),
       .str ['h'], .sleep (1/50), .str ['o'], .sleep (1/50),
       .key "space", .sleep (1/20),
       .str ['h'], .sleep (1/50), .str ['i'], .sleep (1/50),
       .key "Return", .sleep (1/10)] ∧
    (encode_xte ("echo hi\n".toList) 1 1).2 = 127/100 := by
  have hs : splitlines ("echo hi\n".toList) =
      [['e', 'c', 'h', 'o', ' ', 'h', 'i']] := by decide
  have he : specialKeyMap 'e' = none := by decide
  have hc : specialKeyMap 'c' = none := by decide
  have hh : specialKeyMap 'h' = none := by decide
  have ho : specialKeyMap 'o' = none := by decide
  have hi : specialKeyMap 'i' = none := by decide
  have hsp : specialKeyMap ' ' = some (.plain "space") := by decide
  constructor
  · rw [encode_xte_out, hs]
    simp only [lineEvents, emitChar, he, hc, hh, ho, hi, hsp,
      List.flatMap_cons, List.flatMap_nil, List.append_nil,
      List.cons_append, List.nil_append]
    norm_num
  · rw [encode_xte_total, hs]
    simp only [lineTime, emitTime, he, hc, hh, ho, hi, hsp, List.map_cons,
      List.map_nil, List.sum_cons, List.sum_nil]
    norm_num

/-- Claim C7: the input `"\n\n"` synthesizes to exactly the focus pause and,
twice, `key Return` followed by the line-end pause — two Return key events,
no `str` instructions, and no flush pauses. -/
theorem c7_empty_lines_two_returns (fd sl : ℚ) :
    (encode_xte ("\n\n".toList) fd sl).1 =
      [.sleep fd, .key "Return", .sleep (1/10 * sl), .key "Return",
       .sleep (1/10 * sl)] := by
  have hs : splitlines ("\n\n".toList) = [[], []] := by decide
  rw [encode_xte_out, hs]
  simp [lineEvents]

/-- Claim C8 (counterexample): when the input file cannot be read, the
program exits 1 and writes nothing, but prints nothing either — no cause is
reported on the read-failure path (`except Exception: exit(1)`). -/
theorem c8_silent_read_failure :
    (ps1Main toyDeflate toyAdler none none "server/rdp2tcp.ps1"
        ("rdp2tcp.exe".toList)).exitCode = 1 ∧
    (ps1Main toyDeflate toyAdler none none "server/rdp2tcp.ps1"
        ("rdp2tcp.exe".toList)).written = none ∧
    (ps1Main toyDeflate toyAdler none none "server/rdp2tcp.ps1"
        ("rdp2tcp.exe".toList)).stderrOut = [] ∧
    (ps1Main toyDeflate toyAdler none none "server/rdp2tcp.ps1"
        ("rdp2tcp.exe".toList)).stdout = [] :=
  ⟨rfl, rfl, rfl, rfl⟩

/-- Claim C8 (amended): a read failure exits non-zero and writes nothing
(silently); a write failure exits non-zero, writes nothing, and reports the
underlying cause on stderr. -/
theorem c8_failure_behavior (deflate adler : List Nat → List Nat)
    (readData : Option (List Nat)) (writeErr : Option String)
    (outfile : String) (name : List Char) :
    (readData = none →
      ps1Main deflate adler readData writeErr outfile name =
        { exitCode := 1, stdout := [], stderrOut := [], written := none }) ∧
    (∀ d e, readData = some d → writeErr = some e →
      (ps1Main deflate adler readData writeErr outfile name).exitCode = 1 ∧
      (ps1Main deflate adler readData writeErr outfile name).written =
        none ∧
      (ps1Main deflate adler readData writeErr outfile name).stderrOut =
        ["Failed to write output: " ++ e ++ "\n"]) := by
  constructor
  · intro h
    subst h
    rfl
  · intro d e h1 h2
    subst h1
    subst h2
    exact ⟨rfl, rfl, rfl⟩

theorem c8_failure_behavior_witness :
    (ps1Main toyDeflate toyAdler none none "o.ps1" ['x'] =
      { exitCode := 1, stdout := [], stderrOut := [], written := none }) ∧
    ((ps1Main toyDeflate toyAdler (some [1]) (some "disk full") "o.ps1"
        ['x']).exitCode = 1 ∧
      (ps1Main toyDeflate toyAdler (some [1]) (some "disk full") "o.ps1"
        ['x']).written = none ∧
      (ps1Main toyDeflate toyAdler (some [1]) (some "disk full") "o.ps1"
        ['x']).stderrOut = ["Failed to write output: " ++ "disk full" ++
          "\n"]) :=
  ⟨(c8_failure_behavior toyDeflate toyAdler none none "o.ps1" ['x']).1 rfl,
    (c8_failure_behavior toyDeflate toyAdler (some [1]) (some "disk full")
      "o.ps1" ['x']).2 [1] "disk full" rfl rfl⟩

/-- Claim C9: every literal-text `str` instruction the synthesizer emits
carries exactly one character — the literal-run buffer is empty at both
flush points, so a multi-character run is never emitted. -/
theorem c9_str_events_single_char (text : List Char) (fd sl : ℚ)
    (s : List Char) (h : Event.str s ∈ (encode_xte text fd sl).1) :
    s.length = 1 := by
  rw [encode_xte_out] at h
  rcases List.mem_cons.mp h with h1 | h1
  · exact absurd h1 (by simp)
  · rw [List.mem_flatMap] at h1
    obtain ⟨l, hl, h2⟩ := h1
    unfold lineEvents at h2
    rcases List.mem_append.mp h2 with h3 | h3
    · rw [List.mem_flatMap] at h3
      obtain ⟨c, hcl, h4⟩ := h3
      unfold emitChar at h4
      rcases hmap : specialKeyMap c with _ | k
      · rw [hmap] at h4
        simp at h4
        simp [h4]
      · rw [hmap] at h4
        cases k <;> simp at h4
    · simp at h3

theorem c9_single_char_witness :
    Event.str ['a'] ∈ (encode_xte ['a'] 1 1).1 ∧
    (['a'] : List Char).length = 1 := by
  have hmem : Event.str ['a'] ∈ (encode_xte ['a'] 1 1).1 := by decide
  exact ⟨hmem, c9_str_events_single_char ['a'] 1 1 ['a'] hmem⟩

/-- Claim C10 (counterexample): the empty text does not end in a line
separator, yet appending a newline changes the output — the empty text
synthesizes only the focus pause, while `"\n"` adds a Return and its
pause. -/
theorem c10_empty_text_counterexample :
    endsWithLineBreak [] = false ∧
    encode_xte [] 1 1 ≠ encode_xte ['\n'] 1 1 := by
  refine ⟨by decide, ?_⟩
  have h1 : (encode_xte ([] : List Char) 1 1).1 = [.sleep 1] := by
    rw [encode_xte_out]
    have hs : splitlines ([] : List Char) = [] := by decide
    rw [hs]
    simp
  have h2 : (encode_xte ['\n'] 1 1).1 =
      [.sleep 1, .key "Return", .sleep (1/10 * 1)] := by
    rw [encode_xte_out]
    have hs : splitlines ['\n'] = [[]] := by decide
    rw [hs]
    simp [lineEvents]
  intro h
  have hlen := congrArg (fun p : List Event × ℚ => p.1.length) h
  simp only [] at hlen
  rw [h1, h2] at hlen
  simp at hlen

/-- Claim C10 (amended): for every nonempty text that does not end in a line
separator, appending a trailing newline leaves the synthesized instruction
stream and the reported total byte-identical — the unterminated final line
already receives its Return key event and line-end pause. -/
theorem c10_trailing_newline_invariance (text : List Char) (fd sl : ℚ)
    (hne : text ≠ []) (hend : endsWithLineBreak text = false) :
    encode_xte (text ++ ['\n']) fd sl = encode_xte text fd sl := by
  unfold encode_xte
  rw [splitlines_append_lf text hne hend]

theorem c10_trailing_newline_witness :
    ((['a'] : List Char) ≠ []) ∧ endsWithLineBreak ['a'] = false ∧
    encode_xte (['a'] ++ ['\n']) 1 1 = encode_xte ['a'] 1 1 :=
  ⟨by decide, by decide,
    c10_trailing_newline_invariance ['a'] 1 1 (by decide) (by decide)⟩

end Rdp2Tcp
